import Mathlib

/-!
# Verification of the exactonator expression-search engine

Shallow embedding of `src/src/exactonator.cc` (the final revision in that
file, lines 914-1638, which is the revision all claims cite).

Modelling conventions:
* `mpreal` (arbitrary-precision real magnitudes) is embedded as `ℚ`.  All
  concrete runs examined here stay inside the rationals.  Division follows
  Lean's total-division convention `q / 0 = 0`.
* `phys::units::quantity` (run-time dimensioned quantity, used by the
  program as a unit: a scale magnitude together with a vector of seven
  base-dimension exponents) is embedded as `quantity` below.  Its
  equality compares both magnitude and dimension, following the spec's
  description of dimensioned-value equality ("magnitude and dimension both
  match"); the library itself is an external dependency not contained in
  the repository.  `quantity()` (the default constructor) is modelled as
  the dimensionless unit with scale 1.
* `ERR_EXIT` aborts the process; fallible operations are embedded as
  `Except err_t`.
* `mpfr::pow` with a non-integer exponent on a non-negative dimensionless
  base generally produces an irrational real; no claim examined here
  depends on that magnitude, and it is modelled by a placeholder branch
  (`mpow`).  Every power reached by the concrete runs below has an
  integer exponent, where the model is exact.
-/

namespace Exactonator

/-- Vector of exponents of the seven base physical dimensions
(`phys::units` uses length, mass, time, current, temperature, amount,
luminous intensity). -/
structure dim_t where
  d1 : ℤ
  d2 : ℤ
  d3 : ℤ
  d4 : ℤ
  d5 : ℤ
  d6 : ℤ
  d7 : ℤ
deriving DecidableEq, Repr

/-- The dimensionless dimension vector (`phys::units::dimensionless_d`). -/
def dim_t.zero : dim_t := ⟨0, 0, 0, 0, 0, 0, 0⟩

/-- Dimension of a product: exponents add. -/
def dim_t.add (a b : dim_t) : dim_t :=
  ⟨a.d1 + b.d1, a.d2 + b.d2, a.d3 + b.d3, a.d4 + b.d4, a.d5 + b.d5, a.d6 + b.d6, a.d7 + b.d7⟩

/-- Dimension of a quotient: exponents subtract. -/
def dim_t.sub (a b : dim_t) : dim_t :=
  ⟨a.d1 - b.d1, a.d2 - b.d2, a.d3 - b.d3, a.d4 - b.d4, a.d5 - b.d5, a.d6 - b.d6, a.d7 - b.d7⟩

/-- Dimension of an integer power: exponents scale. -/
def dim_t.smul (n : ℤ) (a : dim_t) : dim_t :=
  ⟨n * a.d1, n * a.d2, n * a.d3, n * a.d4, n * a.d5, n * a.d6, n * a.d7⟩

/-- `phys::units::quantity`: a scale magnitude plus a dimension vector. -/
structure quantity where
  mag : ℚ
  dim : dim_t
deriving DecidableEq, Repr

/-- `quantity()`: dimensionless, scale 1. -/
def quantity.default : quantity := ⟨1, dim_t.zero⟩

/-- `unit * other.unit`. -/
def quantity.mul (a b : quantity) : quantity := ⟨a.mag * b.mag, a.dim.add b.dim⟩

/-- `unit / other.unit`. -/
def quantity.div (a b : quantity) : quantity := ⟨a.mag / b.mag, a.dim.sub b.dim⟩

/-- `phys::units::nth_power(unit, n)`. -/
def nth_power (q : quantity) (n : ℤ) : quantity := ⟨q.mag ^ n, dim_t.smul n q.dim⟩

/-- `unit.same_dimension(other)`: compares only the dimension vectors. -/
def quantity.same_dimension (a b : quantity) : Bool := a.dim = b.dim

/-- `mpfr::isint`: the magnitude is an integer. -/
def isint (q : ℚ) : Bool := q.den = 1

/-- `mpfr::pow(value, e)`.  Exact integer power when the exponent is an
integer; the non-integer-exponent branch (only reachable for a
non-negative dimensionless base, where the true result is generally
irrational) is a placeholder whose value no theorem below depends on. -/
def mpow (v e : ℚ) : ℚ := if isint e then v ^ e.num else 0

/-- `dimreal_t`: arbitrary-precision magnitude paired with a unit. -/
structure dimreal_t where
  value : ℚ
  unit : quantity
deriving DecidableEq, Repr

/-- `dimreal_t{0}`: magnitude 0, default unit. -/
def dimreal_t.zero : dimreal_t := ⟨0, quantity.default⟩

/-- `err_t` from the source, restricted to the dimension/exponent errors
raised by `dimreal_t` arithmetic. -/
inductive err_t where
  | dimension_add
  | dimension_dim_exp
  | dimension_nonint_exp_dim_base
  | dimension_nonint_exp_neg_base
deriving DecidableEq, Repr

/-- `dimreal_t::operator+`: aborts with `err_t::dimension_add` when the
dimensions differ, otherwise adds magnitudes and keeps the left unit. -/
def dimadd (a b : dimreal_t) : Except err_t dimreal_t :=
  if a.unit.same_dimension b.unit then .ok ⟨a.value + b.value, a.unit⟩
  else .error .dimension_add

/-- `dimreal_t::operator-`: the source also reports `err_t::dimension_add`
for a subtraction across dimensions (line 991). -/
def dimsub (a b : dimreal_t) : Except err_t dimreal_t :=
  if a.unit.same_dimension b.unit then .ok ⟨a.value - b.value, a.unit⟩
  else .error .dimension_add

/-- `dimreal_t::operator*`: never fails. -/
def dimmul (a b : dimreal_t) : dimreal_t := ⟨a.value * b.value, a.unit.mul b.unit⟩

/-- `dimreal_t::operator/`: never fails (magnitude division by zero is the
total-division convention of the embedding). -/
def dimdiv (a b : dimreal_t) : dimreal_t := ⟨a.value / b.value, a.unit.div b.unit⟩

/-- `mpreal::toLong()` on an integer value: `mpfr_get_si`, which clamps a
value outside the `long` range to `LONG_MIN`/`LONG_MAX` (64-bit on the
targeted platform). -/
def toLong (z : ℤ) : ℤ := max (-(2 ^ 63)) (min (2 ^ 63 - 1) z)

/-- `static_cast<int>` applied to a `long`: reduction modulo `2^32` into
`[-2^31, 2^31)` (two's-complement modular conversion, the behaviour of
the targeted compilers). -/
def toInt32 (z : ℤ) : ℤ := (z + 2 ^ 31) % 2 ^ 32 - 2 ^ 31

/-- The exponent as line 1025 computes it:
`static_cast<int>(other.value.toLong())`.  In the branch that uses it the
exponent value is an integer, so its exact numerator feeds the cast. -/
def castExp (z : ℤ) : ℤ := toInt32 (toLong z)

/-- `dimreal_t::pow` (source lines 1012-1026).  The checks appear in the
source order; the dimensioned-base branch raises the unit to
`static_cast<int>(other.value.toLong())`, modelled faithfully by
`castExp` (saturate to `long`, then wrap to `int`), so for an integer
exponent outside the int32 range the result dimension uses the truncated
exponent, exactly as the program does. -/
def dimpow (a b : dimreal_t) : Except err_t dimreal_t :=
  if b.unit.dim ≠ dim_t.zero then .error .dimension_dim_exp
  else if ¬ isint b.value ∧ ¬ a.unit.same_dimension quantity.default then
    .error .dimension_nonint_exp_dim_base
  else if a.unit.dim = dim_t.zero then
    if a.value < 0 ∧ ¬ isint b.value then .error .dimension_nonint_exp_neg_base
    else .ok ⟨mpow a.value b.value, a.unit⟩
  else .ok ⟨mpow a.value b.value, nth_power a.unit (castExp b.value.num)⟩

/-- `cost(a, b) = |a - b|`. -/
def cost (a b : ℚ) : ℚ := |a - b|

/-- The five binary operator kinds (`addexpr_t` … `powexpr_t`). -/
inductive binop_t where
  | add
  | sub
  | mul
  | div
  | pow
deriving DecidableEq, Repr

/-- Expression tree (`expr_t` and its subclasses).  `lit` is `litexpr_t`,
`cnst` is `cnstexpr_t` (constant name plus its value), `bin` covers the
five `binexpr_t` subclasses.  The `parents` vector of the source is never
populated by this program (no constructor and no call site fills it), so
it is omitted; the evaluation cache is semantically the identity on an
immutable tree (`signal_dirty` is never called) and is likewise
omitted. -/
inductive expr_t where
  | lit (value : dimreal_t)
  | cnst (name : String) (value : dimreal_t)
  | bin (op : binop_t) (l r : expr_t)
deriving DecidableEq, Repr

/-- `expr_t::size()`: 1 plus the sizes of the children. -/
def expr_t.size : expr_t → ℕ
  | .lit _ => 1
  | .cnst _ _ => 1
  | .bin _ l r => 1 + l.size + r.size

/-- The child list (`exprs` member). -/
def expr_t.children : expr_t → List expr_t
  | .lit _ => []
  | .cnst _ _ => []
  | .bin _ l r => [l, r]

/-- `expr_t::load()` / `rload()`: leaves return their stored value, a
binary node evaluates both children left-to-right and applies the
corresponding `dimreal_t` operation; an `ERR_EXIT` in any step aborts the
whole evaluation. -/
def applyOp (op : binop_t) (a b : dimreal_t) : Except err_t dimreal_t :=
  match op with
  | .add => dimadd a b
  | .sub => dimsub a b
  | .mul => .ok (dimmul a b)
  | .div => .ok (dimdiv a b)
  | .pow => dimpow a b

/-- See the preceding comment: the operator dispatch is split out as
`applyOp`. -/
def eval : expr_t → Except err_t dimreal_t
  | .lit v => .ok v
  | .cnst _ v => .ok v
  | .bin op l r => do
    let a ← eval l
    let b ← eval r
    applyOp op a b

/-- Sum of the sizes of a list of expressions (termination measure for the
structural-equality loop below). -/
def sizeList : List expr_t → ℕ
  | [] => 0
  | x :: xs => x.size + sizeList xs

mutual

/-- `expr_t::operator==` (source lines 1093-1102).  The loop runs over
`this`'s child vector and indexes `other.exprs[i]` with no bounds check;
an out-of-range access (undefined behaviour via `std::vector::operator[]`)
is modelled as `none`.  The accumulator `res = res && (…)` short-circuits:
once `res` is false the remaining comparisons (and their out-of-range
accesses) are skipped.  The second loop over `parents` is omitted because
`parents` is always empty in this program. -/
def exprEq (a b : expr_t) : Option Bool :=
  exprEqList a.children b.children
termination_by 2 * a.size
decreasing_by
  cases a <;> (simp [expr_t.children, expr_t.size, sizeList]; try omega)

/-- The comparison loop: pairs the i-th child of `this` with the i-th
child of `other`; running out of `other`'s children is the out-of-range
access. -/
def exprEqList : List expr_t → List expr_t → Option Bool
  | [], _ => some true
  | _ :: _, [] => none
  | x :: xs, y :: ys =>
    match exprEq x y with
    | none => none
    | some false => some false
    | some true => exprEqList xs ys
termination_by xs _ => 2 * sizeList xs + 1
decreasing_by
  · simp [sizeList]
    omega
  · have : 0 < x.size := by cases x <;> simp [expr_t.size]
    simp [sizeList]
    omega

end

/-- Unlabelled tree shape: what remains of an expression once variant
tags, names and payload values are erased. -/
inductive sexpr where
  | leaf
  | node (l r : sexpr)
deriving DecidableEq, Repr

/-- Erase tags and payloads, keeping only the child structure. -/
def shape : expr_t → sexpr
  | .lit _ => .leaf
  | .cnst _ _ => .leaf
  | .bin _ l r => .node (shape l) (shape r)

/-- `exprEq` replayed on bare shapes. -/
def shapeEq : sexpr → sexpr → Option Bool
  | .leaf, _ => some true
  | .node _ _, .leaf => none
  | .node l r, .node l' r' =>
    match shapeEq l l' with
    | none => none
    | some false => some false
    | some true =>
      match shapeEq r r' with
      | none => none
      | some false => some false
      | some true => some true

/-- `cnst_t`: a named constant. -/
structure cnst_t where
  value : dimreal_t
  name : String
  is_default : Bool := false
deriving DecidableEq, Repr

/-- The run configuration the search core consumes: the loaded constants,
the parsed target, and the two bounds (read into `std::int32_t`
globals). -/
structure config where
  constants : List cnst_t
  target : dimreal_t
  max_expr_size : ℤ
  max_int_constants : ℤ
deriving Repr

/-- The integers `i` traversed by `for (mpreal i = lo; i <= hi; i++)`
(empty when `hi < lo`). -/
def intRange (lo hi : ℤ) : List ℤ :=
  (List.range (hi + 1 - lo).toNat).map (fun n => lo + (n : ℤ))

/-- `cursize > max_expr_size` compares the `uint32_t` counter against the
`int32_t` bound, so the bound participates as its unsigned reinterpretation
(for the non-negative bounds of every run considered here this is just the
bound itself). -/
def config.wrappedMax (cfg : config) : ℕ := (cfg.max_expr_size % (2 ^ 32)).toNat

def mkcnst (k : cnst_t) : expr_t := .cnst k.name k.value

def mklit (v : ℚ) (u : quantity) : expr_t := .lit ⟨v, u⟩

/-- The candidates `recurse` synthesizes from seed `b` for one named
constant (source lines 1367-1401), in source order.  `vb` is `b->load()`,
already computed by the enclosing `test_expr`. -/
def constCands (b : expr_t) (vb : dimreal_t) (k : cnst_t) : List expr_t :=
  (if vb.unit.same_dimension quantity.default then
    (if k.value.unit.same_dimension quantity.default then
      (if k.value.value > 0 ∨ (k.value.value < 0 ∧ isint vb.value) then
        [.bin .pow (mkcnst k) b] else [])
      ++ (if vb.value > 0 ∨ (vb.value < 0 ∧ isint k.value.value) then
        [.bin .pow b (mkcnst k)] else [])
      ++ (if isint k.value.value then [.bin .pow b (mkcnst k)] else [])
    else [])
    ++ (if isint vb.value then [.bin .pow (mkcnst k) b] else [])
  else [])
  ++ [.bin .mul b (mkcnst k)]
  ++ (if k.value.value ≠ 0 then [.bin .div b (mkcnst k)] else [])
  ++ (if vb.value ≠ 0 then [.bin .div (mkcnst k) b] else [])
  ++ (if k.value.unit.same_dimension vb.unit then
    [.bin .add b (mkcnst k), .bin .sub b (mkcnst k), .bin .sub (mkcnst k) b]
  else [])

/-- The candidates of the `for (mpreal i = 2; i <= max_int_constants; i++)`
loop (source lines 1403-1415) for one `i`, in source order. -/
def lit2Cands (cfg : config) (b : expr_t) (vb : dimreal_t) (i : ℤ) : List expr_t :=
  [.bin .mul b (mklit (i : ℚ) (cfg.target.unit.div vb.unit))]
  ++ (if (i : ℚ) ≠ 0 then [.bin .div b (mklit (i : ℚ) (vb.unit.div cfg.target.unit))] else [])
  ++ (if vb.unit.same_dimension quantity.default then
    (if isint vb.value then [.bin .pow (mklit (i : ℚ) quantity.default) b] else [])
    ++ [.bin .pow b (mklit (i : ℚ) quantity.default)]
  else [])

/-- The candidates of the `for (mpreal i = 1; i <= max_int_constants; i++)`
loop (source lines 1417-1424) for one `i`, in source order. -/
def lit1Cands (cfg : config) (b : expr_t) (vb : dimreal_t) (i : ℤ) : List expr_t :=
  (if vb.value ≠ 0 then
    [.bin .div (mklit (i : ℚ) (vb.unit.mul cfg.target.unit)) b] else [])
  ++ [.bin .add b (mklit (i : ℚ) vb.unit),
      .bin .sub b (mklit (i : ℚ) vb.unit),
      .bin .sub (mklit (i : ℚ) vb.unit) b]

/-- All candidate parents one call of `recurse` synthesizes from seed `b`
(whose evaluated value is `vb`), in source order, closing with the
`0 - b` candidate of line 1425. -/
def candidates (cfg : config) (b : expr_t) (vb : dimreal_t) : List expr_t :=
  cfg.constants.flatMap (constCands b vb)
  ++ (intRange 2 cfg.max_int_constants).flatMap (lit2Cands cfg b vb)
  ++ (intRange 1 cfg.max_int_constants).flatMap (lit1Cands cfg b vb)
  ++ [.bin .sub (mklit 0 vb.unit) b]

/-- The recording half of `test_expr` (source lines 1355-1362): evaluate
the candidate, and when its dimension matches the target's dimension emit
`(cost, candidate)`.  A failing evaluation would abort the program; the
embedding emits nothing in that case, and the generator-safety theorem
below shows the case is unreachable for generated candidates. -/
def record (cfg : config) (a : expr_t) : List (ℚ × expr_t) :=
  match eval a with
  | .ok v =>
    if v.unit.same_dimension cfg.target.unit then [(cost v.value cfg.target.value, a)]
    else []
  | .error _ => []

/-- `recurse` (source lines 1365-1426) fused with the `test_expr` calls it
makes: past the size bound nothing happens; otherwise every synthesized
candidate is recorded (dimension permitting) and then recursed into as the
new seed at `cursize + 1`.  A seed whose own evaluation fails would have
aborted the program inside `test_expr` before `recurse` was reached.
The structural fuel only bounds the recursion depth for Lean; it is
chosen below (`recurse`) so that the `cursize > max_expr_size` guard is
always what terminates the search, exactly as in the source. -/
def recurseF (cfg : config) : ℕ → expr_t → ℕ → List (ℚ × expr_t)
  | 0, _, _ => []
  | fuel + 1, b, cursize =>
    if cursize > cfg.wrappedMax then []
    else
      match eval b with
      | .error _ => []
      | .ok vb =>
        (candidates cfg b vb).flatMap
          (fun a => record cfg a ++ recurseF cfg fuel a (cursize + 1))

/-- `recurse` proper: with fuel `wrappedMax + 2 - cursize` the fuel can
only run out at `cursize > wrappedMax`, where the guard returns `[]`
anyway (`recurseF_fuel_irrelevant` below). -/
def recurse (cfg : config) (b : expr_t) (cursize : ℕ) : List (ℚ × expr_t) :=
  recurseF cfg (cfg.wrappedMax + 2 - cursize) b cursize

/-- The seed expressions of `main` (source lines 1608-1614): one
`cnstexpr_t` per loaded constant, then the literals `1 … max_int_constants`
carrying the target's unit. -/
def seeds (cfg : config) : List expr_t :=
  cfg.constants.map mkcnst
  ++ (intRange 1 cfg.max_int_constants).map (fun i => mklit (i : ℚ) cfg.target.unit)

/-- The complete result list `all` accumulated by the run: every seed is
passed to `test_expr` at `cursize = 1`, which records it and recurses at
`cursize = 2`. -/
def searchAll (cfg : config) : List (ℚ × expr_t) :=
  (seeds cfg).flatMap (fun s => record cfg s ++ recurse cfg s 2)

/-- One step of the deduplication loop (source lines 1619-1628): look for
the first already-selected entry with exactly the same error; when found,
replace it only if the incoming expression is strictly smaller
(`pos->second->size() > a.second->size()`), otherwise append the incoming
result. -/
def selectInsert : List (ℚ × expr_t) → (ℚ × expr_t) → List (ℚ × expr_t)
  | [], a => [a]
  | p :: rest, a =>
    if a.1 = p.1 then (if p.2.size > a.2.size then a else p) :: rest
    else p :: selectInsert rest a

/-- The full deduplication pass over `all`, front to back. -/
def select (l : List (ℚ × expr_t)) : List (ℚ × expr_t) :=
  l.foldl selectInsert []

/-- Ascending insertion by error.  After deduplication all errors are
distinct, so the ascending order is unique and any comparison sort
(`std::sort` with `a.first < b.first`) produces exactly this list. -/
def insertByErr (a : ℚ × expr_t) : List (ℚ × expr_t) → List (ℚ × expr_t)
  | [] => [a]
  | p :: rest => if a.1 ≤ p.1 then a :: p :: rest else p :: insertByErr a rest

/-- Sort ascending by error (insertion sort). -/
def sortByErr (l : List (ℚ × expr_t)) : List (ℚ × expr_t) :=
  l.foldr insertByErr []

/-- The Result Selector (source lines 1616-1636): deduplicate by error,
sort ascending by error, and keep the first 30 entries (the print loop
runs while `i < 30 && i < selected.size()`). -/
def rankResults (l : List (ℚ × expr_t)) : List (ℚ × expr_t) :=
  (sortByErr (select l)).take 30

/-- The names of the seven built-in `default_constants` of `main`
(source lines 1489-1518); only their names matter to the duplicate
detection modelled here. -/
def defaultNames : List String :=
  ["pi", "e", "euler", "ln2", "catalan", "phi", "fine-structure"]

/-- The configuration error kinds of `err_t` relevant to constant
loading. -/
inductive cfgerr_t where
  | redef_constant
  | redef_default_constant
deriving DecidableEq, Repr

/-- One accepted `name = value` line of `constants.conf` (source lines
1551-1570): scan the constants accepted so far for the same name
(`err_t::redef_constant`), then the default constants
(`err_t::redef_default_constant`); otherwise append. -/
def addConstant (acc : List cnst_t) (nm : String) (v : dimreal_t) :
    Except cfgerr_t (List cnst_t) :=
  if acc.any (fun k => k.name = nm) then .error .redef_constant
  else if defaultNames.contains nm then .error .redef_default_constant
  else .ok (acc ++ [⟨v, nm, false⟩])

/-- Folding `addConstant` over the parsed `name = value` entries, in file
order; the first clash aborts (`ERR_EXIT` exits the process, so each
error is reported at most once). -/
def processConstants (acc : List cnst_t) :
    List (String × dimreal_t) → Except cfgerr_t (List cnst_t)
  | [] => .ok acc
  | (nm, v) :: rest => do
    let acc' ← addConstant acc nm v
    processConstants acc' rest

/-- The run as `main` performs it after reading the four inputs: load the
constants (aborting on a duplicate name, before any candidate is
generated), then accumulate `all` and select/rank the output.  The bounds
are passed through unvalidated, exactly as in the source, which has no
check on them. -/
def runSearch (maxE maxI : ℤ) (tgt : dimreal_t)
    (entries : List (String × dimreal_t)) : Except cfgerr_t (List (ℚ × expr_t)) := do
  let cs ← processConstants [] entries
  let cfg : config := ⟨cs, tgt, maxE, maxI⟩
  .ok (rankResults (searchAll cfg))

/-- Decidable equality for evaluation results (used to state and check
concrete evaluations). -/
instance {e a : Type} [DecidableEq e] [DecidableEq a] : DecidableEq (Except e a) :=
  fun x y =>
  match x, y with
  | .ok v, .ok w =>
    if h : v = w then isTrue (by rw [h]) else
      isFalse (by intro hc; injection hc with hc; exact h hc)
  | .ok _, .error _ => isFalse (by intro hc; exact Except.noConfusion hc)
  | .error _, .ok _ => isFalse (by intro hc; exact Except.noConfusion hc)
  | .error v, .error w =>
    if h : v = w then isTrue (by rw [h]) else
      isFalse (by intro hc; injection hc with hc; exact h hc)

/-- The legality precondition of `dimreal_t::pow` for base value `va` and
exponent value `vb` (§4.1 of the spec): dimensionless exponent; an integer
exponent unless the base is dimensionless; an integer exponent when the
base is dimensionless and negative. -/
def powLegal (va vb : dimreal_t) : Prop :=
  vb.unit.dim = dim_t.zero
  ∧ (isint vb.value = true ∨ va.unit.dim = dim_t.zero)
  ∧ (va.unit.dim = dim_t.zero → va.value < 0 → isint vb.value = true)

instance powLegalDec (va vb : dimreal_t) : Decidable (powLegal va vb) := by
  unfold powLegal
  infer_instance

/-- The legality precondition §4.4 requires of a synthesized candidate at
its top operator: equal evaluated dimensions under `add`/`sub`, a
nonzero evaluated divisor under `div`, and the `pow` legality rules under
`pow`. -/
def legalTop : expr_t → Prop
  | .bin .add l r =>
    ∃ vl vr, eval l = .ok vl ∧ eval r = .ok vr ∧ vl.unit.dim = vr.unit.dim
  | .bin .sub l r =>
    ∃ vl vr, eval l = .ok vl ∧ eval r = .ok vr ∧ vl.unit.dim = vr.unit.dim
  | .bin .div _ r => ∃ vr, eval r = .ok vr ∧ vr.value ≠ 0
  | .bin .pow l r => ∃ vl vr, eval l = .ok vl ∧ eval r = .ok vr ∧ powLegal vl vr
  | _ => True

/-- The Result Selector's deduplication step exactly as the claim wording
states it: scan the already-selected results for one with an exactly
equal error value; if found, keep whichever of the two expressions has
smaller `size()` (the already-selected one when neither is strictly
smaller) and discard the other; if not found, add the result as newly
selected. -/
def selectorSpecInsert : List (ℚ × expr_t) → (ℚ × expr_t) → List (ℚ × expr_t)
  | [], a => [a]
  | p :: rest, a =>
    if a.1 = p.1 then (if a.2.size < p.2.size then a else p) :: rest
    else p :: selectorSpecInsert rest a

/-- The Result Selector as the claim wording states it: deduplicate every
result in order, sort the selected set ascending by error, output the
first 30 (or fewer) entries. -/
def selectorSpec (l : List (ℚ × expr_t)) : List (ℚ × expr_t) :=
  (sortByErr (l.foldl selectorSpecInsert [])).take 30

/-- End-to-end example 2 exactly as the claim states it: no constants,
dimensionless target 4, `max_expr_size = 1`, `max_int_constants = 4`. -/
def exampleCfg1 : config := ⟨[], ⟨4, quantity.default⟩, 1, 4⟩

/-- The same example with `max_expr_size = 2`, the smallest bound at which
the generator combines seeds at all. -/
def exampleCfg2 : config := ⟨[], ⟨4, quantity.default⟩, 2, 4⟩

/-- `(2 ^ 2)` as the generator builds it in example 2: both literals are
dimensionless (the target's unit on the seed side, the default unit on
the synthesized exponent/base side, which coincide here). -/
def powTwoTwo : expr_t :=
  .bin .pow (.lit ⟨2, quantity.default⟩) (.lit ⟨2, quantity.default⟩)

attribute [local semireducible] Rat.add Rat.mul Rat.sub Rat.inv

theorem same_dimension_iff {a b : quantity} :
    a.same_dimension b = true ↔ a.dim = b.dim := by
  simp [quantity.same_dimension]

theorem same_dimension_default_iff {a : quantity} :
    a.same_dimension quantity.default = true ↔ a.dim = dim_t.zero := by
  simp [quantity.same_dimension, quantity.default]

theorem dim_t.smul_zero (n : ℤ) : dim_t.smul n dim_t.zero = dim_t.zero := by
  simp [dim_t.smul, dim_t.zero]

theorem dimadd_ok {a b : dimreal_t} (h : a.unit.dim = b.unit.dim) :
    dimadd a b = .ok ⟨a.value + b.value, a.unit⟩ := by
  simp [dimadd, same_dimension_iff.mpr h]

theorem dimsub_ok {a b : dimreal_t} (h : a.unit.dim = b.unit.dim) :
    dimsub a b = .ok ⟨a.value - b.value, a.unit⟩ := by
  simp [dimsub, same_dimension_iff.mpr h]

theorem dimpow_ok_of_legal {a b : dimreal_t} (h : powLegal a b) :
    ∃ v, dimpow a b = .ok v ∧ v.value = mpow a.value b.value
      ∧ v.unit.dim = dim_t.smul (castExp b.value.num) a.unit.dim := by
  obtain ⟨hbd, hint, hneg⟩ := h
  by_cases hi : isint b.value = true
  · by_cases had : a.unit.dim = dim_t.zero
    · refine ⟨⟨mpow a.value b.value, a.unit⟩, ?_, rfl, ?_⟩
      · simp [dimpow, hbd, had, hi]
      · rw [had, dim_t.smul_zero]
    · refine ⟨⟨mpow a.value b.value, nth_power a.unit (castExp b.value.num)⟩, ?_, rfl, rfl⟩
      simp [dimpow, hbd, had, hi, same_dimension_default_iff]
  · have had : a.unit.dim = dim_t.zero := by
      rcases hint with h | h
      · exact absurd h hi
      · exact h
    have hnn : ¬ a.value < 0 := fun hlt => hi (hneg had hlt)
    refine ⟨⟨mpow a.value b.value, a.unit⟩, ?_, rfl, ?_⟩
    · simp [dimpow, hbd, had, hi, same_dimension_default_iff, hnn]
    · rw [had, dim_t.smul_zero]

theorem eval_bin {op : binop_t} {l r : expr_t} :
    eval (.bin op l r) =
      (eval l).bind (fun a => (eval r).bind (fun b => applyOp op a b)) := by
  simp [eval, Bind.bind, Except.bind]

theorem eval_bin_ok_intro {op : binop_t} {l r : expr_t} {vl vr : dimreal_t}
    (hl : eval l = .ok vl) (hr : eval r = .ok vr) :
    eval (.bin op l r) = applyOp op vl vr := by
  rw [eval_bin, hl, hr]
  simp [Except.bind]

theorem isint_intCast (i : ℤ) : isint (i : ℚ) = true := by
  simp [isint]

/-- `exprEq` is determined by the bare tree shapes: payloads, names and
operator tags never influence it. -/
theorem exprEq_shape : ∀ a b : expr_t, exprEq a b = shapeEq (shape a) (shape b) := by
  intro a
  induction a with
  | lit v =>
    intro b
    rw [exprEq]
    cases b <;> simp [expr_t.children, exprEqList, shape, shapeEq]
  | cnst n v =>
    intro b
    rw [exprEq]
    cases b <;> simp [expr_t.children, exprEqList, shape, shapeEq]
  | bin op l r ihl ihr =>
    intro b
    rw [exprEq]
    cases b with
    | lit w => simp [expr_t.children, exprEqList, shape, shapeEq]
    | cnst n w => simp [expr_t.children, exprEqList, shape, shapeEq]
    | bin op2 l2 r2 =>
      simp only [expr_t.children, shape, shapeEq]
      rw [exprEqList, ihl]
      cases hsl : shapeEq (shape l) (shape l2) with
      | none => rfl
      | some bl =>
        cases bl
        · rfl
        · rw [exprEqList, ihr]
          cases hsr : shapeEq (shape r) (shape r2) with
          | none => rfl
          | some br =>
            cases br
            · rfl
            · rw [exprEqList]

/-! ## Claim C3: `pow` error handling -/

theorem castExp_eq_self {z : ℤ} (h1 : -(2 ^ 31) ≤ z) (h2 : z ≤ 2 ^ 31 - 1) :
    castExp z = z := by
  unfold castExp toLong toInt32
  rw [min_eq_right (by omega), max_eq_right (by omega)]
  omega

/-- C3 as stated is false on the code: for the dimensioned base
`2 metres` and the legal integer exponent `2^31`, `pow` succeeds but
`static_cast<int>(toLong(2^31))` wraps to `-2^31`, so the result
dimension is the base dimension raised to `-2^31`, not to the exponent
`2^31` the claim requires. -/
theorem claim3_counterexample :
    powLegal ⟨2, ⟨1, ⟨1, 0, 0, 0, 0, 0, 0⟩⟩⟩ ⟨(2 : ℚ) ^ 31, quantity.default⟩
    ∧ (dimpow ⟨2, ⟨1, ⟨1, 0, 0, 0, 0, 0, 0⟩⟩⟩ ⟨(2 : ℚ) ^ 31, quantity.default⟩).map
        (fun v => v.unit.dim) = .ok ⟨-(2 ^ 31), 0, 0, 0, 0, 0, 0⟩
    ∧ dim_t.smul ((2 : ℚ) ^ 31).num ⟨1, 0, 0, 0, 0, 0, 0⟩ =
        ⟨2 ^ 31, 0, 0, 0, 0, 0, 0⟩
    ∧ (⟨-(2 ^ 31), 0, 0, 0, 0, 0, 0⟩ : dim_t) ≠ ⟨2 ^ 31, 0, 0, 0, 0, 0, 0⟩ := by
  refine ⟨by decide, by decide, by decide, by decide⟩

/-- C3 amended: for all dimensioned values `base` and `exponent`, `pow`
fails with the non-dimensionless-exponent error when the exponent's
dimension is not dimensionless; fails with the
fractional-exponent-on-dimensioned-base error when (past the first check)
the exponent is non-integer and the base is not dimensionless; fails with
the fractional-exponent-on-negative-base error when the base is
dimensionless and negative and the exponent is non-integer; and otherwise
(the `powLegal` preconditions) succeeds with result dimension equal to
the base dimension raised to the exponent *as converted through
`static_cast<int>(toLong(·))`* — hence to the exact exponent whenever its
integer value fits in an int32 (and always when the base is
dimensionless). -/
theorem claim3_pow_cases (a b : dimreal_t) :
    (b.unit.dim ≠ dim_t.zero → dimpow a b = .error .dimension_dim_exp)
    ∧ (b.unit.dim = dim_t.zero → isint b.value = false → a.unit.dim ≠ dim_t.zero →
        dimpow a b = .error .dimension_nonint_exp_dim_base)
    ∧ (b.unit.dim = dim_t.zero → a.unit.dim = dim_t.zero → a.value < 0 →
        isint b.value = false → dimpow a b = .error .dimension_nonint_exp_neg_base)
    ∧ (powLegal a b →
        ∃ v, dimpow a b = .ok v
          ∧ v.unit.dim = dim_t.smul (castExp b.value.num) a.unit.dim)
    ∧ (powLegal a b → -(2 ^ 31) ≤ b.value.num → b.value.num ≤ 2 ^ 31 - 1 →
        ∃ v, dimpow a b = .ok v ∧ v.unit.dim = dim_t.smul b.value.num a.unit.dim) := by
  refine ⟨?_, ?_, ?_, ?_, ?_⟩
  · intro h
    simp [dimpow, h]
  · intro hb hi ha
    simp [dimpow, hb, hi, same_dimension_default_iff, ha]
  · intro hb ha hneg hi
    simp [dimpow, hb, hi, same_dimension_default_iff, ha, hneg]
  · intro h
    obtain ⟨v, hv, _, hd⟩ := dimpow_ok_of_legal h
    exact ⟨v, hv, hd⟩
  · intro h h1 h2
    obtain ⟨v, hv, _, hd⟩ := dimpow_ok_of_legal h
    refine ⟨v, hv, ?_⟩
    rw [hd, castExp_eq_self h1 h2]

/-- Concrete instances exercising each branch of `claim3_pow_cases`. -/
theorem claim3_pow_cases_witness :
    dimpow ⟨2, quantity.default⟩ ⟨2, ⟨1, ⟨1, 0, 0, 0, 0, 0, 0⟩⟩⟩ =
      .error .dimension_dim_exp
    ∧ dimpow ⟨2, ⟨1, ⟨1, 0, 0, 0, 0, 0, 0⟩⟩⟩ ⟨(1 : ℚ)/2, quantity.default⟩ =
      .error .dimension_nonint_exp_dim_base
    ∧ dimpow ⟨-2, quantity.default⟩ ⟨(1 : ℚ)/2, quantity.default⟩ =
      .error .dimension_nonint_exp_neg_base
    ∧ (∃ v, dimpow ⟨2, ⟨1, ⟨1, 0, 0, 0, 0, 0, 0⟩⟩⟩ ⟨3, quantity.default⟩ = .ok v
        ∧ v.unit.dim = dim_t.smul (castExp (3 : ℚ).num) ⟨1, 0, 0, 0, 0, 0, 0⟩)
    ∧ (∃ v, dimpow ⟨2, ⟨1, ⟨1, 0, 0, 0, 0, 0, 0⟩⟩⟩ ⟨3, quantity.default⟩ = .ok v
        ∧ v.unit.dim = dim_t.smul (3 : ℚ).num ⟨1, 0, 0, 0, 0, 0, 0⟩) :=
  ⟨(claim3_pow_cases _ _).1 (by decide),
   (claim3_pow_cases _ _).2.1 (by decide) (by decide) (by decide),
   (claim3_pow_cases _ _).2.2.1 (by decide) (by decide) (by decide) (by decide),
   (claim3_pow_cases _ _).2.2.2.1 (by decide),
   (claim3_pow_cases _ _).2.2.2.2 (by decide) (by decide) (by decide)⟩

/-! ## Claim C7: `add`/`sub` dimension checking -/

/-- C7: `add(a, b)` and `sub(a, b)` fail with the dimension-mismatch error
(`err_t::dimension_add` in the source, for both operators) exactly when
the dimensions of `a` and `b` are not equal, and on success the result's
dimension equals both operands' dimension unchanged. -/
theorem claim7_addsub_dimension (a b : dimreal_t) :
    (dimadd a b = .error .dimension_add ↔ a.unit.dim ≠ b.unit.dim)
    ∧ (dimsub a b = .error .dimension_add ↔ a.unit.dim ≠ b.unit.dim)
    ∧ (∀ v, dimadd a b = .ok v → v.unit.dim = a.unit.dim ∧ v.unit.dim = b.unit.dim)
    ∧ (∀ v, dimsub a b = .ok v → v.unit.dim = a.unit.dim ∧ v.unit.dim = b.unit.dim) := by
  refine ⟨?_, ?_, ?_, ?_⟩
  · by_cases h : a.unit.dim = b.unit.dim
    · simp [dimadd_ok h, h]
    · simp [dimadd, same_dimension_iff, h]
  · by_cases h : a.unit.dim = b.unit.dim
    · simp [dimsub_ok h, h]
    · simp [dimsub, same_dimension_iff, h]
  · intro v hv
    by_cases h : a.unit.dim = b.unit.dim
    · rw [dimadd_ok h] at hv
      injection hv with hv
      rw [← hv]
      exact ⟨rfl, h⟩
    · simp [dimadd, same_dimension_iff, h] at hv
  · intro v hv
    by_cases h : a.unit.dim = b.unit.dim
    · rw [dimsub_ok h] at hv
      injection hv with hv
      rw [← hv]
      exact ⟨rfl, h⟩
    · simp [dimsub, same_dimension_iff, h] at hv

/-- Concrete instances exercising `claim7_addsub_dimension`: a mismatched
pair fails, a matched pair succeeds with the dimension carried through. -/
theorem claim7_addsub_dimension_witness :
    dimadd ⟨1, quantity.default⟩ ⟨1, ⟨1, ⟨1, 0, 0, 0, 0, 0, 0⟩⟩⟩ =
      .error .dimension_add
    ∧ (⟨5, ⟨1, ⟨1, 0, 0, 0, 0, 0, 0⟩⟩⟩ : dimreal_t).unit.dim =
      (⟨2, ⟨1, ⟨1, 0, 0, 0, 0, 0, 0⟩⟩⟩ : dimreal_t).unit.dim :=
  ⟨(claim7_addsub_dimension _ _).1.mpr (by decide),
   ((claim7_addsub_dimension ⟨2, ⟨1, ⟨1, 0, 0, 0, 0, 0, 0⟩⟩⟩
      ⟨3, ⟨1, ⟨1, 0, 0, 0, 0, 0, 0⟩⟩⟩).2.2.1 ⟨5, ⟨1, ⟨1, 0, 0, 0, 0, 0, 0⟩⟩⟩
      (by decide)).2⟩

/-! ## Claim C9: structural equality ignores tags and payloads -/

/-- C9: `expr_t::operator==` compares only the recursively-compared child
lists — it is a function of the bare tree shapes alone — and in
particular any two leaf expressions compare equal regardless of their
kinds, names, or values. -/
theorem claim9_eq_ignores_payload :
    (∀ a b : expr_t, exprEq a b = shapeEq (shape a) (shape b))
    ∧ (∀ (v w : dimreal_t) (n m : String),
        exprEq (.lit v) (.lit w) = some true
        ∧ exprEq (.lit v) (.cnst n w) = some true
        ∧ exprEq (.cnst n v) (.lit w) = some true
        ∧ exprEq (.cnst n v) (.cnst m w) = some true) := by
  refine ⟨exprEq_shape, ?_⟩
  intro v w n m
  refine ⟨?_, ?_, ?_, ?_⟩ <;> (rw [exprEq]; simp [expr_t.children]; rw [exprEqList])

/-! ## Claim C10: the equality comparison is not total -/

/-- C10: comparing a binary node (two children) against a node with fewer
children indexes the other node's child vector past its end with no
bounds check; the embedding renders the out-of-range access as `none`,
and it is reached for every such pair. -/
theorem claim10_eq_out_of_bounds :
    (∀ (op : binop_t) (x y : expr_t) (v : dimreal_t),
      exprEq (.bin op x y) (.lit v) = none)
    ∧ (∀ (op : binop_t) (x y : expr_t) (n : String) (v : dimreal_t),
      exprEq (.bin op x y) (.cnst n v) = none) := by
  constructor
  · intro op x y v
    rw [exprEq]
    simp [expr_t.children]
    rw [exprEqList]
  · intro op x y n v
    rw [exprEq]
    simp [expr_t.children]
    rw [exprEqList]

/-! ## Further helper lemmas (generator and selector) -/

/-- Any fuel at least `wrappedMax + 1 - cursize` gives the same search:
the `cursize > max_expr_size` guard, not the fuel, terminates it. -/
theorem recurseF_fuel_irrelevant (cfg : config) :
    ∀ f1 f2 b c, cfg.wrappedMax + 1 - c ≤ f1 → cfg.wrappedMax + 1 - c ≤ f2 →
      recurseF cfg f1 b c = recurseF cfg f2 b c := by
  intro f1
  induction f1 with
  | zero =>
    intro f2 b c h1 h2
    have hc : c > cfg.wrappedMax := by omega
    cases f2 with
    | zero => rfl
    | succ f2 => simp [recurseF, hc]
  | succ f1 ih =>
    intro f2 b c h1 h2
    cases f2 with
    | zero =>
      have hc : c > cfg.wrappedMax := by omega
      simp [recurseF, hc]
    | succ f2 =>
      by_cases hc : c > cfg.wrappedMax
      · simp [recurseF, hc]
      · simp only [recurseF, if_neg hc]
        cases eval b with
        | error e => rfl
        | ok vb =>
          simp only []
          congr 1
          funext a
          rw [ih f2 a (c + 1) (by omega) (by omega)]

/-- The code's deduplication step is the claim's deduplication step (the
strict `pos->second->size() > a.second->size()` comparison is exactly
"replace when the incoming expression is smaller"). -/
theorem selectInsert_eq_spec :
    ∀ sel a, selectInsert sel a = selectorSpecInsert sel a := by
  intro sel
  induction sel with
  | nil => intro a; rfl
  | cons p rest ih =>
    intro a
    simp only [selectInsert, selectorSpecInsert, ih]

theorem mem_insertByErr {a q : ℚ × expr_t} :
    ∀ {l}, q ∈ insertByErr a l ↔ q = a ∨ q ∈ l := by
  intro l
  induction l with
  | nil => simp [insertByErr]
  | cons p rest ih =>
    by_cases hle : a.1 ≤ p.1 <;> (simp [insertByErr, hle, ih]; try tauto)

theorem sorted_insertByErr {a : ℚ × expr_t} {l : List (ℚ × expr_t)}
    (h : List.Sorted (fun p q : ℚ × expr_t => p.1 ≤ q.1) l) :
    List.Sorted (fun p q : ℚ × expr_t => p.1 ≤ q.1) (insertByErr a l) := by
  induction l with
  | nil => simp [insertByErr]
  | cons p rest ih =>
    rw [List.sorted_cons] at h
    obtain ⟨hp, hrest⟩ := h
    by_cases hle : a.1 ≤ p.1
    · simp only [insertByErr, if_pos hle]
      rw [List.sorted_cons]
      refine ⟨?_, List.sorted_cons.mpr ⟨hp, hrest⟩⟩
      intro q hq
      rcases List.mem_cons.mp hq with hq | hq
      · rw [hq]; exact hle
      · exact le_trans hle (hp q hq)
    · simp only [insertByErr, if_neg hle]
      rw [List.sorted_cons]
      refine ⟨?_, ih hrest⟩
      intro q hq
      rcases mem_insertByErr.mp hq with hq | hq
      · rw [hq]; exact le_of_lt (lt_of_not_le hle)
      · exact hp q hq

theorem sorted_sortByErr (l : List (ℚ × expr_t)) :
    List.Sorted (fun p q : ℚ × expr_t => p.1 ≤ q.1) (sortByErr l) := by
  unfold sortByErr
  induction l with
  | nil => simp
  | cons p rest ih => exact sorted_insertByErr ih

/-- Only duplicate-free (also against the default constants) entry lists
pass constant loading. -/
theorem processConstants_ok_nodup :
    ∀ (entries : List (String × dimreal_t)) (acc out : List cnst_t),
      processConstants acc entries = .ok out →
      (entries.map Prod.fst).Nodup
      ∧ ∀ nm ∈ entries.map Prod.fst, ∀ k ∈ acc, k.name ≠ nm := by
  intro entries
  induction entries with
  | nil => intro acc out _; simp
  | cons e rest ih =>
    intro acc out h
    obtain ⟨nm, v⟩ := e
    simp only [processConstants, Bind.bind] at h
    cases ha : addConstant acc nm v with
    | error er => rw [ha] at h; simp [Except.bind] at h
    | ok acc1 =>
      rw [ha] at h
      simp only [Except.bind] at h
      unfold addConstant at ha
      by_cases h1 : acc.any (fun k => k.name = nm) = true
      · rw [if_pos h1] at ha
        exact Except.noConfusion ha
      · rw [if_neg h1] at ha
        by_cases h2 : defaultNames.contains nm = true
        · rw [if_pos h2] at ha
          exact Except.noConfusion ha
        · rw [if_neg h2] at ha
          injection ha with ha
          obtain ⟨hnd, hacc⟩ := ih acc1 out h
          constructor
          · rw [List.map_cons, List.nodup_cons]
            refine ⟨?_, hnd⟩
            intro hmem
            have := hacc nm hmem ⟨v, nm, false⟩ (by rw [← ha]; simp)
            exact this rfl
          · intro m hm k hk
            rw [List.map_cons] at hm
            rcases List.mem_cons.mp hm with hm2 | hm2
            · rw [hm2]
              intro hkm
              have : acc.any (fun k => k.name = nm) = true :=
                List.any_eq_true.mpr ⟨k, hk, by simp [hkm]⟩
              exact h1 this
            · exact hacc m hm2 k (by rw [← ha]; simp [hk])

/-! ## Claim C1: end-to-end example 2 -/

/-- C1 as stated is false on the code: with `max_expr_size = 1` the
recursion is entered at `cursize = 2 > 1` and returns immediately, so the
result set is exactly the four bare seed literals and contains no
composite expression — in particular not `(2 ^ 2)` with zero error. -/
theorem claim1_counterexample :
    searchAll exampleCfg1 =
      [(3, mklit 1 quantity.default), (2, mklit 2 quantity.default),
       (1, mklit 3 quantity.default), (0, mklit 4 quantity.default)]
    ∧ (0, powTwoTwo) ∉ searchAll exampleCfg1 := by
  constructor
  · decide
  · decide

/-- C1 amended: with `max_expr_size = 2` (the smallest bound admitting
one combination step; with 1 only bare literals are tested) the result
set includes `(2 ^ 2)` with zero error, and the Selector ranks the
zero-error entry — retained as the size-1 literal `4` by the
smaller-expression deduplication, which discards `(2 ^ 2)` — ahead of
every entry with nonzero error. -/
theorem claim1_amended :
    (0, powTwoTwo) ∈ searchAll exampleCfg2
    ∧ (rankResults (searchAll exampleCfg2)).head? = some (0, mklit 4 quantity.default)
    ∧ (rankResults (searchAll exampleCfg2)).tail.all (fun p => decide (0 < p.1)) = true := by
  refine ⟨by decide, by decide, by decide⟩

/-! ## Claim C2: the Result Selector -/

/-- C2: the Result Selector scans the already-selected results for an
exactly equal error, keeps the smaller of the two expressions on a hit,
appends on a miss, then sorts ascending by error and outputs the first 30
(or fewer) entries — i.e. it equals the algorithm transcribed from the
claim (`selectorSpec`), and its output is ascending with length at
most 30. -/
theorem claim2_selector (l : List (ℚ × expr_t)) :
    rankResults l = selectorSpec l
    ∧ (rankResults l).length ≤ 30
    ∧ List.Sorted (fun p q : ℚ × expr_t => p.1 ≤ q.1) (rankResults l) := by
  refine ⟨?_, ?_, ?_⟩
  · unfold rankResults selectorSpec select
    have he : selectInsert = selectorSpecInsert :=
      funext fun s => funext fun a => selectInsert_eq_spec s a
    rw [he]
  · unfold rankResults
    simp [List.length_take]
  · unfold rankResults
    exact (sorted_sortByErr _).sublist (List.take_sublist _ _)

/-! ## Claim C8: configuration error handling -/

/-- C8 as stated is false on the code: there is no validation of the two
bounds anywhere in `main` — a run configured with the non-positive
`max_expr_size = 0` (and likewise a negative `max_int_constants`) is not
aborted; it completes and produces output. -/
theorem claim8_counterexample :
    runSearch 0 4 ⟨4, quantity.default⟩ [] =
      .ok [(0, mklit 4 quantity.default), (1, mklit 3 quantity.default),
           (2, mklit 2 quantity.default), (3, mklit 1 quantity.default)]
    ∧ runSearch 2 (-1) ⟨4, quantity.default⟩ [] = .ok [] := by
  constructor
  · decide
  · decide

/-- C8 amended: a duplicate constant name is detected during constant
loading — before any candidate generation, and at most once since the
first clash aborts the run — while non-positive bounds are not validated
at all and the run proceeds (generation is merely cut short by them). -/
theorem claim8_amended :
    (∀ (entries : List (String × dimreal_t)) (maxE maxI : ℤ) (tgt : dimreal_t),
      ¬ (entries.map Prod.fst).Nodup →
      ∃ e, runSearch maxE maxI tgt entries = .error e)
    ∧ runSearch 0 4 ⟨4, quantity.default⟩ [] =
        .ok [(0, mklit 4 quantity.default), (1, mklit 3 quantity.default),
             (2, mklit 2 quantity.default), (3, mklit 1 quantity.default)] := by
  constructor
  · intro entries maxE maxI tgt hdup
    cases h : processConstants [] entries with
    | ok cs => exact absurd (processConstants_ok_nodup entries [] cs h).1 hdup
    | error e =>
      refine ⟨e, ?_⟩
      simp [runSearch, Bind.bind, h, Except.bind]
  · decide

/-- Concrete instance of `claim8_amended`: the duplicated name `"a"`
aborts the run. -/
theorem claim8_amended_witness :
    ∃ e, runSearch 1 1 ⟨1, quantity.default⟩
      [("a", ⟨1, quantity.default⟩), ("a", ⟨2, quantity.default⟩)] = .error e :=
  claim8_amended.1 _ 1 1 _ (by decide)

/-! ## Claim C5: generator size bound -/

theorem forall_mem_ite_nil {P : expr_t → Prop} {c : Prop} [Decidable c] {l : List expr_t}
    (h : c → ∀ a ∈ l, P a) : ∀ a ∈ (if c then l else []), P a := by
  by_cases hc : c
  · rw [if_pos hc]
    exact h hc
  · rw [if_neg hc]
    intro a ha
    cases ha

theorem size_wrap_right (op : binop_t) (b x : expr_t) (hx : x.size = 1) :
    (expr_t.bin op b x).size = b.size + 2 := by
  simp only [expr_t.size, hx]
  omega

theorem size_wrap_left (op : binop_t) (b x : expr_t) (hx : x.size = 1) :
    (expr_t.bin op x b).size = b.size + 2 := by
  simp only [expr_t.size, hx]
  omega

theorem size_constCands {b : expr_t} {vb : dimreal_t} {k : cnst_t} :
    ∀ a ∈ constCands b vb k, a.size = b.size + 2 := by
  unfold constCands
  refine List.forall_mem_append.mpr ⟨List.forall_mem_append.mpr
    ⟨List.forall_mem_append.mpr ⟨List.forall_mem_append.mpr
      ⟨forall_mem_ite_nil (fun _ => ?_),
       List.forall_mem_singleton.mpr (size_wrap_right _ _ _ (by rfl))⟩,
     forall_mem_ite_nil
       (fun _ => List.forall_mem_singleton.mpr (size_wrap_right _ _ _ (by rfl)))⟩,
    forall_mem_ite_nil
      (fun _ => List.forall_mem_singleton.mpr (size_wrap_left _ _ _ (by rfl)))⟩,
   forall_mem_ite_nil (fun _ => ?_)⟩
  · refine List.forall_mem_append.mpr
      ⟨forall_mem_ite_nil (fun _ => ?_),
       forall_mem_ite_nil
         (fun _ => List.forall_mem_singleton.mpr (size_wrap_left _ _ _ (by rfl)))⟩
    refine List.forall_mem_append.mpr ⟨List.forall_mem_append.mpr
      ⟨forall_mem_ite_nil
        (fun _ => List.forall_mem_singleton.mpr (size_wrap_left _ _ _ (by rfl))),
       forall_mem_ite_nil
        (fun _ => List.forall_mem_singleton.mpr (size_wrap_right _ _ _ (by rfl)))⟩,
      forall_mem_ite_nil
        (fun _ => List.forall_mem_singleton.mpr (size_wrap_right _ _ _ (by rfl)))⟩
  · refine List.forall_mem_cons.mpr ⟨size_wrap_right _ _ _ (by rfl), ?_⟩
    refine List.forall_mem_cons.mpr ⟨size_wrap_right _ _ _ (by rfl), ?_⟩
    exact List.forall_mem_singleton.mpr (size_wrap_left _ _ _ (by rfl))

theorem size_lit2Cands {cfg : config} {b : expr_t} {vb : dimreal_t} {i : ℤ} :
    ∀ a ∈ lit2Cands cfg b vb i, a.size = b.size + 2 := by
  unfold lit2Cands
  refine List.forall_mem_append.mpr ⟨List.forall_mem_append.mpr
    ⟨List.forall_mem_singleton.mpr (size_wrap_right _ _ _ (by rfl)),
     forall_mem_ite_nil
       (fun _ => List.forall_mem_singleton.mpr (size_wrap_right _ _ _ (by rfl)))⟩,
   forall_mem_ite_nil (fun _ => ?_)⟩
  refine List.forall_mem_append.mpr
    ⟨forall_mem_ite_nil
      (fun _ => List.forall_mem_singleton.mpr (size_wrap_left _ _ _ (by rfl))),
     List.forall_mem_singleton.mpr (size_wrap_right _ _ _ (by rfl))⟩

theorem size_lit1Cands {cfg : config} {b : expr_t} {vb : dimreal_t} {i : ℤ} :
    ∀ a ∈ lit1Cands cfg b vb i, a.size = b.size + 2 := by
  unfold lit1Cands
  refine List.forall_mem_append.mpr
    ⟨forall_mem_ite_nil
      (fun _ => List.forall_mem_singleton.mpr (size_wrap_left _ _ _ (by rfl))), ?_⟩
  refine List.forall_mem_cons.mpr ⟨size_wrap_right _ _ _ (by rfl), ?_⟩
  refine List.forall_mem_cons.mpr ⟨size_wrap_right _ _ _ (by rfl), ?_⟩
  exact List.forall_mem_singleton.mpr (size_wrap_left _ _ _ (by rfl))

/-- Every candidate wraps the seed in one new binary node with a leaf:
size grows by exactly 2. -/
theorem size_candidates {cfg : config} {b : expr_t} {vb : dimreal_t} :
    ∀ a ∈ candidates cfg b vb, a.size = b.size + 2 := by
  unfold candidates
  refine List.forall_mem_append.mpr ⟨List.forall_mem_append.mpr
    ⟨List.forall_mem_append.mpr ⟨?_, ?_⟩, ?_⟩,
   List.forall_mem_singleton.mpr (size_wrap_left _ _ _ (by rfl))⟩
  · intro a ha
    obtain ⟨k, _, hak⟩ := List.mem_flatMap.mp ha
    exact size_constCands a hak
  · intro a ha
    obtain ⟨i, _, hai⟩ := List.mem_flatMap.mp ha
    exact size_lit2Cands a hai
  · intro a ha
    obtain ⟨i, _, hai⟩ := List.mem_flatMap.mp ha
    exact size_lit1Cands a hai

/-- A recorded pair's expression is the tested expression itself. -/
theorem mem_record {cfg : config} {a : expr_t} {p : ℚ × expr_t}
    (hp : p ∈ record cfg a) : p.2 = a := by
  cases he : eval a with
  | error e => simp [record, he] at hp
  | ok v =>
    simp only [record, he] at hp
    split at hp
    · rw [List.mem_singleton.mp hp]
    · cases hp

/-- Size invariant of the recursion: from a seed obeying
`size + 2 ≤ 2·cursize + 1`, every recorded expression stays within
`2·max_expr_size + 1`. -/
theorem recurseF_size_le (cfg : config) :
    ∀ (fuel : ℕ) (b : expr_t) (c : ℕ), b.size + 2 ≤ 2 * c + 1 →
      ∀ p ∈ recurseF cfg fuel b c, p.2.size ≤ 2 * cfg.wrappedMax + 1 := by
  intro fuel
  induction fuel with
  | zero =>
    intro b c _ p hp
    cases hp
  | succ fuel ih =>
    intro b c hbc p hp
    unfold recurseF at hp
    by_cases hc : c > cfg.wrappedMax
    · rw [if_pos hc] at hp
      cases hp
    · rw [if_neg hc] at hp
      cases he : eval b with
      | error e =>
        rw [he] at hp
        cases hp
      | ok vb =>
        rw [he] at hp
        obtain ⟨a, hacand, hpa⟩ := List.mem_flatMap.mp hp
        have hsize := size_candidates a hacand
        rcases List.mem_append.mp hpa with hrec | hrec
        · rw [mem_record hrec, hsize]
          omega
        · exact ih a (c + 1) (by omega) p hrec

/-- C5: with `max_expr_size = N` (a positive int32, per the bounds-input
contract), every Search Result the run records has an expression of size
at most `2N + 1` (in fact at most `2N - 1`; the claimed bound holds a
fortiori). -/
theorem claim5_size_bound (cfg : config) (h1 : 1 ≤ cfg.max_expr_size)
    (h2 : cfg.max_expr_size ≤ 2 ^ 31 - 1) :
    ∀ p ∈ searchAll cfg, (p.2.size : ℤ) ≤ 2 * cfg.max_expr_size + 1 := by
  have hw : (cfg.wrappedMax : ℤ) = cfg.max_expr_size := by
    unfold config.wrappedMax
    rw [Int.emod_eq_of_lt (by omega) (by omega)]
    exact Int.toNat_of_nonneg (by omega)
  intro p hp
  unfold searchAll at hp
  obtain ⟨s, hs, hps⟩ := List.mem_flatMap.mp hp
  have hs1 : s.size = 1 := by
    unfold seeds at hs
    rcases List.mem_append.mp hs with hs | hs
    · obtain ⟨k, _, rfl⟩ := List.mem_map.mp hs
      rfl
    · obtain ⟨i, _, rfl⟩ := List.mem_map.mp hs
      rfl
  have hb : p.2.size ≤ 2 * cfg.wrappedMax + 1 := by
    rcases List.mem_append.mp hps with hr | hr
    · rw [mem_record hr, hs1]
      omega
    · unfold recurse at hr
      exact recurseF_size_le cfg _ s 2 (by omega) p hr
  omega

/-- Concrete instance of `claim5_size_bound`: the first recorded seed of
example 2 (with `max_expr_size = 2`) obeys the bound `2·2 + 1`. -/
theorem claim5_size_bound_witness :
    ((3 : ℚ), mklit 1 quantity.default) ∈ searchAll exampleCfg2
    ∧ (((mklit 1 quantity.default).size : ℤ) ≤ 2 * exampleCfg2.max_expr_size + 1) :=
  ⟨by decide,
   claim5_size_bound exampleCfg2 (by decide) (by decide)
     ((3 : ℚ), mklit 1 quantity.default) (by decide)⟩

/-! ## Claim C6: generator legality / safety -/

theorem eval_mkcnst (k : cnst_t) : eval (mkcnst k) = .ok k.value := rfl

theorem eval_mklit (v : ℚ) (u : quantity) : eval (mklit v u) = .ok ⟨v, u⟩ := rfl

theorem safe_mul {l r : expr_t} {vl vr : dimreal_t}
    (hl : eval l = .ok vl) (hr : eval r = .ok vr) :
    legalTop (.bin .mul l r) ∧ ∃ v, eval (.bin .mul l r) = .ok v := by
  refine ⟨trivial, ⟨dimmul vl vr, ?_⟩⟩
  rw [eval_bin_ok_intro hl hr]
  rfl

theorem safe_div {l r : expr_t} {vl vr : dimreal_t}
    (hl : eval l = .ok vl) (hr : eval r = .ok vr) (hnz : vr.value ≠ 0) :
    legalTop (.bin .div l r) ∧ ∃ v, eval (.bin .div l r) = .ok v := by
  refine ⟨⟨vr, hr, hnz⟩, ⟨dimdiv vl vr, ?_⟩⟩
  rw [eval_bin_ok_intro hl hr]
  rfl

theorem safe_add {l r : expr_t} {vl vr : dimreal_t}
    (hl : eval l = .ok vl) (hr : eval r = .ok vr)
    (hd : vl.unit.dim = vr.unit.dim) :
    legalTop (.bin .add l r) ∧ ∃ v, eval (.bin .add l r) = .ok v := by
  refine ⟨⟨vl, vr, hl, hr, hd⟩, ⟨⟨vl.value + vr.value, vl.unit⟩, ?_⟩⟩
  rw [eval_bin_ok_intro hl hr]
  exact dimadd_ok hd

theorem safe_sub {l r : expr_t} {vl vr : dimreal_t}
    (hl : eval l = .ok vl) (hr : eval r = .ok vr)
    (hd : vl.unit.dim = vr.unit.dim) :
    legalTop (.bin .sub l r) ∧ ∃ v, eval (.bin .sub l r) = .ok v := by
  refine ⟨⟨vl, vr, hl, hr, hd⟩, ⟨⟨vl.value - vr.value, vl.unit⟩, ?_⟩⟩
  rw [eval_bin_ok_intro hl hr]
  exact dimsub_ok hd

theorem safe_pow {l r : expr_t} {vl vr : dimreal_t}
    (hl : eval l = .ok vl) (hr : eval r = .ok vr) (hleg : powLegal vl vr) :
    legalTop (.bin .pow l r) ∧ ∃ v, eval (.bin .pow l r) = .ok v := by
  obtain ⟨v, hv, _, _⟩ := dimpow_ok_of_legal hleg
  refine ⟨⟨vl, vr, hl, hr, hleg⟩, ⟨v, ?_⟩⟩
  rw [eval_bin_ok_intro hl hr]
  exact hv

theorem safety_constCands {b : expr_t} {vb : dimreal_t} {k : cnst_t}
    (hb : eval b = .ok vb) :
    ∀ a ∈ constCands b vb k, legalTop a ∧ ∃ v, eval a = .ok v := by
  unfold constCands
  refine List.forall_mem_append.mpr ⟨List.forall_mem_append.mpr
    ⟨List.forall_mem_append.mpr ⟨List.forall_mem_append.mpr
      ⟨forall_mem_ite_nil (fun hb0 => ?_),
       List.forall_mem_singleton.mpr (safe_mul hb (eval_mkcnst k))⟩,
     forall_mem_ite_nil (fun hknz =>
       List.forall_mem_singleton.mpr (safe_div hb (eval_mkcnst k) hknz))⟩,
    forall_mem_ite_nil (fun hbnz =>
      List.forall_mem_singleton.mpr (safe_div (eval_mkcnst k) hb hbnz))⟩,
   forall_mem_ite_nil (fun hsame => ?_)⟩
  · have hb0d : vb.unit.dim = dim_t.zero := same_dimension_default_iff.mp hb0
    refine List.forall_mem_append.mpr
      ⟨forall_mem_ite_nil (fun hk0 => ?_),
       forall_mem_ite_nil (fun hintb =>
         List.forall_mem_singleton.mpr (safe_pow (eval_mkcnst k) hb
           ⟨hb0d, Or.inl hintb, fun _ _ => hintb⟩))⟩
    have hk0d : k.value.unit.dim = dim_t.zero := same_dimension_default_iff.mp hk0
    refine List.forall_mem_append.mpr ⟨List.forall_mem_append.mpr
      ⟨forall_mem_ite_nil (fun hg1 => List.forall_mem_singleton.mpr
        (safe_pow (eval_mkcnst k) hb ⟨hb0d, Or.inr hk0d, fun _ hneg => ?_⟩)),
       forall_mem_ite_nil (fun hg2 => List.forall_mem_singleton.mpr
        (safe_pow hb (eval_mkcnst k) ⟨hk0d, Or.inr hb0d, fun _ hneg => ?_⟩))⟩,
      forall_mem_ite_nil (fun hg3 => List.forall_mem_singleton.mpr
        (safe_pow hb (eval_mkcnst k) ⟨hk0d, Or.inl hg3, fun _ _ => hg3⟩))⟩
    · rcases hg1 with hpos | hni
      · exact (lt_asymm hpos hneg).elim
      · exact hni.2
    · rcases hg2 with hpos | hni
      · exact (lt_asymm hpos hneg).elim
      · exact hni.2
  · have hkb : k.value.unit.dim = vb.unit.dim := same_dimension_iff.mp hsame
    refine List.forall_mem_cons.mpr ⟨safe_add hb (eval_mkcnst k) hkb.symm, ?_⟩
    refine List.forall_mem_cons.mpr ⟨safe_sub hb (eval_mkcnst k) hkb.symm, ?_⟩
    exact List.forall_mem_singleton.mpr (safe_sub (eval_mkcnst k) hb hkb)

theorem safety_lit2Cands {cfg : config} {b : expr_t} {vb : dimreal_t} {i : ℤ}
    (hb : eval b = .ok vb) :
    ∀ a ∈ lit2Cands cfg b vb i, legalTop a ∧ ∃ v, eval a = .ok v := by
  unfold lit2Cands
  refine List.forall_mem_append.mpr ⟨List.forall_mem_append.mpr
    ⟨List.forall_mem_singleton.mpr (safe_mul hb (eval_mklit _ _)),
     forall_mem_ite_nil (fun hnz => List.forall_mem_singleton.mpr
       (safe_div hb (eval_mklit _ _) hnz))⟩,
   forall_mem_ite_nil (fun hb0 => ?_)⟩
  have hb0d : vb.unit.dim = dim_t.zero := same_dimension_default_iff.mp hb0
  refine List.forall_mem_append.mpr
    ⟨forall_mem_ite_nil (fun hint => List.forall_mem_singleton.mpr
       (safe_pow (eval_mklit _ _) hb ⟨hb0d, Or.inl hint, fun _ _ => hint⟩)),
     List.forall_mem_singleton.mpr
       (safe_pow hb (eval_mklit _ _)
         ⟨rfl, Or.inl (isint_intCast i), fun _ _ => isint_intCast i⟩)⟩

theorem safety_lit1Cands {cfg : config} {b : expr_t} {vb : dimreal_t} {i : ℤ}
    (hb : eval b = .ok vb) :
    ∀ a ∈ lit1Cands cfg b vb i, legalTop a ∧ ∃ v, eval a = .ok v := by
  unfold lit1Cands
  refine List.forall_mem_append.mpr
    ⟨forall_mem_ite_nil (fun hnz => List.forall_mem_singleton.mpr
       (safe_div (eval_mklit _ _) hb hnz)), ?_⟩
  refine List.forall_mem_cons.mpr ⟨safe_add hb (eval_mklit _ _) rfl, ?_⟩
  refine List.forall_mem_cons.mpr ⟨safe_sub hb (eval_mklit _ _) rfl, ?_⟩
  exact List.forall_mem_singleton.mpr (safe_sub (eval_mklit _ _) hb rfl)

/-- C6: every candidate the generator synthesizes from a seed whose
evaluation succeeds satisfies the legality preconditions of §4.1 at its
top operator (equal dimensions for add/sub, nonzero divisor for div, the
`pow` legality rules for pow), and consequently its evaluation succeeds —
no dimension or exponent error is ever triggered by a generated
candidate. -/
theorem claim6_generator_safety (cfg : config) (b : expr_t) (vb : dimreal_t)
    (hb : eval b = .ok vb) :
    ∀ a ∈ candidates cfg b vb, legalTop a ∧ ∃ v, eval a = .ok v := by
  unfold candidates
  refine List.forall_mem_append.mpr ⟨List.forall_mem_append.mpr
    ⟨List.forall_mem_append.mpr ⟨?_, ?_⟩, ?_⟩,
   List.forall_mem_singleton.mpr (safe_sub (eval_mklit 0 vb.unit) hb rfl)⟩
  · intro a ha
    obtain ⟨k, _, hak⟩ := List.mem_flatMap.mp ha
    exact safety_constCands hb a hak
  · intro a ha
    obtain ⟨i, _, hai⟩ := List.mem_flatMap.mp ha
    exact safety_lit2Cands hb a hai
  · intro a ha
    obtain ⟨i, _, hai⟩ := List.mem_flatMap.mp ha
    exact safety_lit1Cands hb a hai

/-- Concrete instance of `claim6_generator_safety`: `(2 ^ 2)` as
synthesized from the seed literal `2` of example 2 is legal and
evaluates successfully. -/
theorem claim6_generator_safety_witness :
    legalTop powTwoTwo ∧ ∃ v, eval powTwoTwo = .ok v :=
  claim6_generator_safety exampleCfg2 (mklit 2 quantity.default)
    ⟨2, quantity.default⟩ rfl powTwoTwo (by decide)

/-! ## Claim C4: the simplifier preserves evaluation -/

end Exactonator
